import Mathlib

/-!
Verification development for the two funcotator data-source reformatting
scripts of this repository:

  * scripts/funcotator/data_sources/getOreganno.py
  * scripts/funcotator/data_source_reformatting/cosmic/createCosmicFusionGeneTsv.py

Both scripts are Python 2 programs.  Python 2 `str` values are byte
strings, so strings are modelled as `List Nat` of byte values.  Python
dict access `d[k]` is fallible (KeyError), so record access returns an
`Option`; an uncaught exception aborting the run is modelled with an
explicit error value.  All definitions are executable and reduce in the
kernel, so concrete runs can be checked by `decide` or `rfl`.
-/

/-- A Python 2 byte string. -/
abbrev Str := List Nat

/-- Byte-string literal helper: the ASCII bytes of a Lean string. -/
def bytes (s : String) : Str := s.data.map Char.toNat

/-- Python 2 `str.lower` on a single byte (ASCII, default C locale). -/
def pyByteLower (b : Nat) : Nat := if 65 ≤ b ∧ b ≤ 90 then b + 32 else b

/-- Python 2 `str.lower`. -/
def pyLower (s : Str) : Str := s.map pyByteLower

/-- A row mapping column names to values, as produced by GenericTsvReader. -/
abbrev Record := List (Str × Str)

/-- Python dict read `r[k]`: `none` models a raised KeyError. -/
def pyGet (r : Record) (k : Str) : Option Str := (r.find? (fun p => p.1 == k)).map (·.2)

/-- Uncaught Python exceptions that abort a run. -/
inductive PyErr
  | keyError
  | notImplemented
deriving DecidableEq

/-! ## getOreganno.py -/

/-- OUTPUT_HEADERS of getOreganno.py. -/
def OUTPUT_HEADERS : List Str :=
  [bytes "Build", bytes "Chr", bytes "Start", bytes "End", bytes "ID", bytes "Values"]

/-- The fixed key list iterated by get_values_data_from_row_dict. -/
def VALUES_KEYS : List Str :=
  [bytes "Outcome", bytes "Type", bytes "Gene_Symbol", bytes "Gene_ID", bytes "Gene_Source",
   bytes "Regulatory_Element_Symbol", bytes "Regulatory_Element_ID",
   bytes "Regulatory_Element_Source", bytes "dbSNP_ID", bytes "PMID", bytes "Dataset"]

/-- get_values_data_from_row_dict of getOreganno.py: starting from the empty
string, append `key + "=" + r[key]` for each key of the fixed list in order.
A missing key is a KeyError, modelled by `none`. -/
def get_values_data_from_row_dict (r : Record) : Option Str :=
  VALUES_KEYS.foldl
    (fun acc k => acc.bind (fun v => (pyGet r k).map (fun x => v ++ k ++ bytes "=" ++ x)))
    (some [])

/-- The projected output row dict built in the main loop (before Values is added):
row with keys Build, Chr, Start, End, ID copied from the input line. -/
def buildRow (build chr start stop oid : Str) : Record :=
  [(bytes "Build", build), (bytes "Chr", chr), (bytes "Start", start),
   (bytes "End", stop), (bytes "ID", oid)]

/-- Destination selected by the build routing of getOreganno.py. -/
inductive Dest
  | hg19
  | hg38
  | dropped
deriving DecidableEq

/-- The routing of the main loop: `line['Build'].lower() == 'hg19'`, then
`'hg38'`, else the record is ignored with a diagnostic. -/
def routeOf (build : Str) : Dest :=
  if pyLower build == bytes "hg19" then .hg19
  else if pyLower build == bytes "hg38" then .hg38
  else .dropped

/-- csv.DictWriter.writerow: values in fieldname order, restval for missing keys. -/
def renderOutRow (row : Record) : List Str :=
  OUTPUT_HEADERS.map (fun h => (pyGet row h).getD [])

/-- Outcome of the loop body of getOreganno.py on one input line. -/
inductive LineOutcome
  | droppedSpecies
  | wrote19 (row : List Str)
  | wrote38 (row : List Str)
  | droppedBuild
deriving DecidableEq

/-- The loop body of getOreganno.py, faithfully in source order: read
`line['Species']`, drop unless `line['Species'].lower() == 'Homo sapiens'`,
copy the five trivial fields, synthesize Values by calling
get_values_data_from_row_dict ON THE PROJECTED ROW (as the source does),
then route on `line['Build'].lower()`. -/
def processLine (line : Record) : Except PyErr LineOutcome :=
  match pyGet line (bytes "Species") with
  | none => .error .keyError
  | some sp =>
    if pyLower sp == bytes "Homo sapiens" then
      match pyGet line (bytes "Build"), pyGet line (bytes "Chr"), pyGet line (bytes "Start"),
            pyGet line (bytes "End"), pyGet line (bytes "ORegAnno_ID") with
      | some build, some chr, some start, some stop, some oid =>
        match get_values_data_from_row_dict (buildRow build chr start stop oid) with
        | none => .error .keyError
        | some vals =>
          let row := buildRow build chr start stop oid ++ [(bytes "Values", vals)]
          match routeOf build with
          | .hg19 => .ok (.wrote19 (renderOutRow row))
          | .hg38 => .ok (.wrote38 (renderOutRow row))
          | .dropped => .ok .droppedBuild
      | _, _, _, _, _ => .error .keyError
    else .ok .droppedSpecies

/-- Diagnostics printed by the main loop, with the 0-based line index. -/
inductive Diag
  | nonHuman (i : Nat)
  | badBuild (i : Nat)
deriving DecidableEq

/-- Result of a getOreganno run: the data rows flushed to each destination,
the diagnostics, and the error that aborted the run, if any.  Rows written
before an abort stay written (the files keep what was flushed). -/
structure OregResult where
  rows19 : List (List Str)
  rows38 : List (List Str)
  diags : List Diag
  err : Option PyErr
deriving DecidableEq

/-- The main loop of getOreganno.py from line index `i`. -/
def runFrom (i : Nat) : List Record → OregResult
  | [] => ⟨[], [], [], none⟩
  | line :: rest =>
    match processLine line with
    | .error e => ⟨[], [], [], some e⟩
    | .ok .droppedSpecies =>
      let r := runFrom (i + 1) rest
      ⟨r.rows19, r.rows38, .nonHuman i :: r.diags, r.err⟩
    | .ok (.wrote19 row) =>
      let r := runFrom (i + 1) rest
      ⟨row :: r.rows19, r.rows38, r.diags, r.err⟩
    | .ok (.wrote38 row) =>
      let r := runFrom (i + 1) rest
      ⟨r.rows19, row :: r.rows38, r.diags, r.err⟩
    | .ok .droppedBuild =>
      let r := runFrom (i + 1) rest
      ⟨r.rows19, r.rows38, .badBuild i :: r.diags, r.err⟩

/-- A full getOreganno run over the input records. -/
def runOreganno (lines : List Record) : OregResult := runFrom 0 lines

/-- Content of the hg19 destination file: header written at open time,
then the flushed data rows. -/
def hg19File (lines : List Record) : List (List Str) :=
  OUTPUT_HEADERS :: (runOreganno lines).rows19

/-- Content of the hg38 destination file. -/
def hg38File (lines : List Record) : List (List Str) :=
  OUTPUT_HEADERS :: (runOreganno lines).rows38

/-! ### Basic facts about the species filter -/

/-- No byte lowercases to 72 (`H`). -/
theorem pyByteLower_ne_H (b : Nat) : pyByteLower b ≠ 72 := by
  unfold pyByteLower
  split <;> omega

/-- The comparison `s.lower() == 'Homo sapiens'` can never succeed: the
left side never contains an uppercase `H`. -/
theorem pyLower_ne_homo (s : Str) : pyLower s ≠ bytes "Homo sapiens" := by
  intro h
  cases s with
  | nil => simp [pyLower, bytes] at h
  | cons b t =>
    have hb : pyByteLower b = 72 := by
      have : pyLower (b :: t) = 72 :: (bytes "Homo sapiens").tail := by
        rw [h]; rfl
      simpa [pyLower] using congrArg (fun l => l.headD 0) this
    exact pyByteLower_ne_H b hb

/-- Every line is either dropped by the species filter or aborts the run
with a KeyError (when the Species column is missing); in particular no
line is ever written or even reaches the build routing. -/
theorem processLine_cases (line : Record) :
    processLine line = .ok .droppedSpecies ∨ processLine line = .error .keyError := by
  unfold processLine
  cases pyGet line (bytes "Species") with
  | none => right; rfl
  | some sp =>
    left
    have : (pyLower sp == bytes "Homo sapiens") = false := by
      exact beq_eq_false_iff_ne.mpr (pyLower_ne_homo sp)
    simp [this]

/-- No data row is ever flushed to either destination. -/
theorem runFrom_rows_nil (lines : List Record) : ∀ i,
    (runFrom i lines).rows19 = [] ∧ (runFrom i lines).rows38 = [] := by
  induction lines with
  | nil => intro i; exact ⟨rfl, rfl⟩
  | cons line rest ih =>
    intro i
    rcases processLine_cases line with h | h <;>
      simp [runFrom, h, (ih (i + 1)).1, (ih (i + 1)).2]

/-! ### Claim theorems for getOreganno.py -/

/-- A sample input record with Species exactly `Homo sapiens`, all columns present. -/
def oregSample : Record :=
  [(bytes "Species", bytes "Homo sapiens"), (bytes "Build", bytes "hg19"),
   (bytes "Chr", bytes "chr1"), (bytes "Start", bytes "100"), (bytes "End", bytes "200"),
   (bytes "ORegAnno_ID", bytes "OREG0001"),
   (bytes "Outcome", bytes "OC"), (bytes "Type", bytes "TY"),
   (bytes "Gene_Symbol", bytes "GS"), (bytes "Gene_ID", bytes "GI"),
   (bytes "Gene_Source", bytes "GO"), (bytes "Regulatory_Element_Symbol", bytes "RS"),
   (bytes "Regulatory_Element_ID", bytes "RI"), (bytes "Regulatory_Element_Source", bytes "RO"),
   (bytes "dbSNP_ID", bytes "DB"), (bytes "PMID", bytes "PM"), (bytes "Dataset", bytes "DS")]

/-- C1: the claim says a record whose Species field equals `Homo sapiens`
exactly is retained; the code drops it.  The filter compares the LOWERCASED
field with the mixed-case constant, so the exact match is dropped with the
non-human diagnostic and reaches no destination file. -/
theorem c1_exact_species_match_dropped :
    pyGet oregSample (bytes "Species") = some (bytes "Homo sapiens") ∧
    (pyLower (bytes "Homo sapiens") == bytes "Homo sapiens") = false ∧
    processLine oregSample = .ok .droppedSpecies ∧
    runOreganno [oregSample] = ⟨[], [], [.nonHuman 0], none⟩ ∧
    hg19File [oregSample] = [OUTPUT_HEADERS] ∧ hg38File [oregSample] = [OUTPUT_HEADERS] := by
  refine ⟨by decide, by decide, by rfl, by decide, by decide, by decide⟩

/-- C2: the Values helper is invoked on the projected row, which never
contains the eleven source columns, so it raises a KeyError for every
possible projected row; applied to the source record itself (as the claim
and the spec intend) it would return the claimed concatenation. -/
theorem c2_values_helper_wrong_dict :
    (∀ b c s e i, get_values_data_from_row_dict (buildRow b c s e i) = none) ∧
    get_values_data_from_row_dict oregSample =
      some (bytes
        "Outcome=OCType=TYGene_Symbol=GSGene_ID=GIGene_Source=GORegulatory_Element_Symbol=RSRegulatory_Element_ID=RIRegulatory_Element_Source=ROdbSNP_ID=DBPMID=PMDataset=DS") := by
  constructor
  · intro b c s e i; rfl
  · decide

/-- C3: for every input, both destination files contain exactly the header
row after the run: the lowercased Species field is compared against the
mixed-case constant `Homo sapiens`, which no record can satisfy, so every
record is dropped before routing. -/
theorem c3_outputs_always_header_only :
    (∀ sp : Str, (pyLower sp == bytes "Homo sapiens") = false) ∧
    ∀ lines : List Record, hg19File lines = [OUTPUT_HEADERS] ∧ hg38File lines = [OUTPUT_HEADERS] := by
  constructor
  · exact fun sp => beq_eq_false_iff_ne.mpr (pyLower_ne_homo sp)
  · intro lines
    have h := runFrom_rows_nil lines 0
    constructor
    · simp [hg19File, runOreganno, h.1]
    · simp [hg38File, runOreganno, h.2]

/-- C5: the build routing selects exactly one destination per row by
case-insensitive comparison against the labels hg19 and hg38 (lowercasing
the field and comparing with the lowercase label); a build matching
neither is dropped, and the enumerated examples behave as claimed. -/
theorem c5_build_routing :
    (∀ b, routeOf b = .hg19 ∨ routeOf b = .hg38 ∨ routeOf b = .dropped) ∧
    (∀ b, routeOf b = .hg19 ↔ pyLower b = pyLower (bytes "hg19")) ∧
    (∀ b, routeOf b = .hg38 ↔ pyLower b = pyLower (bytes "hg38")) ∧
    (∀ b, routeOf b = .dropped ↔
      (pyLower b ≠ pyLower (bytes "hg19") ∧ pyLower b ≠ pyLower (bytes "hg38"))) ∧
    routeOf (bytes "HG19") = .hg19 ∧ routeOf (bytes "hg38") = .hg38 ∧
    routeOf (bytes "HG38") = .hg38 ∧ routeOf (bytes "HG18") = .dropped := by
  have e19 : pyLower (bytes "hg19") = bytes "hg19" := by decide
  have e38 : pyLower (bytes "hg38") = bytes "hg38" := by decide
  refine ⟨?_, ?_, ?_, ?_, by decide, by decide, by decide, by decide⟩
  · intro b
    unfold routeOf
    split_ifs <;> simp
  · intro b
    rw [e19]
    unfold routeOf
    split_ifs with h1 h2 <;>
      simp_all [beq_iff_eq]
  · intro b
    have hne : bytes "hg19" ≠ bytes "hg38" := by decide
    rw [e38]
    unfold routeOf
    split_ifs with h1 h2 <;>
      simp_all [beq_iff_eq]
  · intro b
    have hne : bytes "hg19" ≠ bytes "hg38" := by decide
    rw [e19, e38]
    unfold routeOf
    split_ifs with h1 h2 <;>
      simp_all [beq_iff_eq]

/-! ## createCosmicFusionGeneTsv.py -/

/-- A byte of the regex character class `[A-Z0-9\-\.]`. -/
def isTokenByte (b : Nat) : Bool :=
  (65 ≤ b && b ≤ 90) || (48 ≤ b && b ≤ 57) || b == 45 || b == 46

/-- Bytes stripped by Python 2 `str.strip()` (ASCII whitespace). -/
def pyIsSpaceByte (b : Nat) : Bool :=
  b == 32 || b == 9 || b == 10 || b == 13 || b == 11 || b == 12

/-- True when `len(s.strip()) == 0`: the line is blank. -/
def isBlank (s : Str) : Bool := s.all pyIsSpaceByte

/-- One anchored match attempt of the pattern `_*([A-Z0-9\-\.]+)\{` at the
start of `s`, returning the captured group and the remainder after the
consumed `{` (byte 123).  `_*` (byte 95) is greedy; since `_` is not in
the capture class and `{` is not either, greedy matching needs no
backtracking here: the class run after the underscores must be followed
immediately by `{`. -/
def reMatchAt (s : Str) : Option (Str × Str) :=
  let t := s.dropWhile (fun b => b == 95)
  let tok := t.takeWhile isTokenByte
  let rest := t.dropWhile isTokenByte
  match rest with
  | [] => none
  | b :: rest2 => if b == 123 && !tok.isEmpty then some (tok, rest2) else none

/-- The `re.findall` scan: try a match at each position left to right,
non-overlapping, resuming after each match.  Structured with explicit
fuel so that it reduces in the kernel. -/
def reFindAllAux : Nat → Str → List Str
  | 0, _ => []
  | _, [] => []
  | fuel + 1, b :: t =>
    match reMatchAt (b :: t) with
    | some (tok, rest) => tok :: reFindAllAux fuel rest
    | none => reFindAllAux fuel t

/-- Model of `re.findall("_*([A-Z0-9\-\.]+)\{", s)`. -/
def reFindAll (s : Str) : List Str := reFindAllAux s.length s

/-- Per-key tally: description string to occurrence count, in first
insertion order (the count content of the Python 2 inner dict). -/
abbrev Tally := List (Str × Nat)

/-- The whole aggregation table: OrderedDict from gene key to inner tally. -/
abbrev FGDict := List (Str × Tally)

/-- The inner-dict update of the aggregation loop: set the description to 0
when absent, then increment it. -/
def innerBump (inner : Tally) (d : Str) : Tally :=
  if inner.any (fun q => q.1 == d) then
    inner.map (fun q => if q.1 == d then (q.1, q.2 + 1) else q)
  else inner ++ [(d, 1)]

/-- One iteration of `for k in genes_in_this_fusion`: create the outer entry
when the key is new, then bump the description count under the key. -/
def fgInsert (dict : FGDict) (k d : Str) : FGDict :=
  if dict.any (fun p => p.1 == k) then
    dict.map (fun p => if p.1 == k then (p.1, innerBump p.2 d) else p)
  else dict ++ [(k, innerBump [] d)]

/-- The loop body for one input line: skip blank descriptions, otherwise
fold the extracted keys into the table. -/
def stepLine (dict : FGDict) (d : Str) : FGDict :=
  if isBlank d then dict
  else (reFindAll d).foldl (fun dc k => fgInsert dc k d) dict

/-- The aggregation pass over the description column values. -/
def aggregate (descs : List Str) : FGDict := descs.foldl stepLine []

/-- Outer lookup in the aggregation table. -/
def fgFind (dict : FGDict) (k : Str) : Option Tally :=
  (dict.find? (fun p => p.1 == k)).map (·.2)

/-- Nested lookup: the stored count under key `k` for description `d`. -/
def fgLookup2 (dict : FGDict) (k d : Str) : Option Nat :=
  (fgFind dict k).bind (fun inner => (inner.find? (fun q => q.1 == d)).map (·.2))

/-! ### Spec-side characterization of the key extraction (for C6) -/

/-- The maximal run of class bytes at the end of `s`. -/
def trailingRun (s : Str) : Str := (s.reverse.takeWhile isTokenByte).reverse

/-- Modelled from the words of the spec: scan the description position by
position; at every `{` (byte 123) emit the token of uppercase letters,
digits, hyphens and periods immediately preceding it (the maximal class
run before that brace, which excludes any preceding underscores), skipping
braces with no token before them.  `pre` is the prefix already scanned. -/
def specKeysAux : Str → Str → List Str
  | _, [] => []
  | pre, c :: cs =>
    (if c == 123 && !(trailingRun pre).isEmpty then [trailingRun pre] else []) ++
      specKeysAux (pre ++ [c]) cs

/-- The spec-side reading of the key extraction: for each `{` of the
description, the maximal class token immediately before it, when nonempty. -/
def specKeys (s : Str) : List Str := specKeysAux [] s

/-! ### CPython 2 inner-dict iteration order

The per-key tally is a plain Python 2 `dict()` (not an OrderedDict), so
`renderFusionGeneDictEntry` iterates its keys in CPython 2.7 hash-table
order, not in insertion order.  That order is deterministic (the scripts
predate hash randomization being on by default, and CPython 2 disables it
unless requested): string hash from stringobject.c, open addressing with
the 5*i + perturb + 1 probe and PERTURB_SHIFT 5 from dictobject.c, table
of 8 slots growing to the smallest power of two above 4*used whenever a
new key brings used*3 to at least 2*size, and iteration in ascending slot
order.  The functions below model exactly that for an insert-only dict
with byte-string keys on a 64-bit build (hashes are unsigned 64-bit
patterns, `Nat` values reduced mod 2^64). -/

/-- CPython 2.7 string hash (the unsigned 64-bit bit pattern). -/
def pyHashStr (s : Str) : Nat :=
  match s with
  | [] => 0
  | c :: _ =>
    let M := 2 ^ 64
    let x1 := s.foldl (fun x b => (1000003 * x % M) ^^^ b) (c <<< 7)
    let x2 := x1 ^^^ s.length
    if x2 == M - 1 then M - 2 else x2

/-- The probe loop of lookdict for a dict with no deletions: return the
first slot of the probe sequence that is empty or holds the key.  The
fuel is generous: once perturb reaches 0 (after at most 13 shifts) the
recurrence 5*i+1 cycles through every slot of a power-of-two table, so
`size + 70` steps always suffice; the fuel-out fallback is unreachable. -/
def probeLoop (table : List (Option Str)) (key : Str) : Nat → Nat → Nat → Nat
  | 0, i, _ => i % table.length
  | fuel + 1, i, perturb =>
    let slot := i % table.length
    match table.getD slot none with
    | none => slot
    | some k2 =>
      if k2 == key then slot
      else probeLoop table key fuel ((5 * i + perturb + 1) % 2 ^ 64) (perturb >>> 5)

/-- The slot at which `key` lives or would be inserted. -/
def dictProbe (table : List (Option Str)) (key : Str) : Nat :=
  probeLoop table key (table.length + 70) (pyHashStr key % table.length) (pyHashStr key)

/-- Insert a key without resizing (insertdict with no value payload):
no-op when the key is already present. -/
def dictSetKey (table : List (Option Str)) (key : Str) : List (Option Str) :=
  let s := dictProbe table key
  match table.getD s none with
  | some _ => table
  | none => table.set s (some key)

/-- Number of occupied slots. -/
def dictUsed (table : List (Option Str)) : Nat := (table.filterMap id).length

/-- dictresize target: the smallest power of two strictly above `minused`,
starting from 8. -/
def growSize : Nat → Nat → Nat → Nat
  | 0, cur, _ => cur
  | fuel + 1, cur, minused => if cur ≤ minused then growSize fuel (2 * cur) minused else cur

/-- Size of the resized table for `dictresize(mp, minused)`. -/
def newSize (minused : Nat) : Nat := growSize (minused + 4) 8 minused

/-- dictresize: reinsert the keys of the old table, in ascending slot
order, into a fresh table of the given size. -/
def dictRebuild (keys : List Str) (size : Nat) : List (Option Str) :=
  keys.foldl dictSetKey (List.replicate size none)

/-- PyDict_SetItem for a new-or-present key: insert, then resize when the
insert added a key and filled the table to two thirds. -/
def pyDictInsert (table : List (Option Str)) (key : Str) : List (Option Str) :=
  let t2 := dictSetKey table key
  if dictUsed t2 > dictUsed table ∧ 3 * dictUsed t2 ≥ 2 * table.length then
    dictRebuild (t2.filterMap id) (newSize (4 * dictUsed t2))
  else t2

/-- Iteration order of a CPython 2.7 dict after inserting the given keys
in order (duplicates are overwrites and change nothing): the keys of the
final table in ascending slot order. -/
def pyDictOrder (keys : List Str) : List Str :=
  (keys.foldl pyDictInsert (List.replicate 8 none)).filterMap id

/-- Decimal rendering `str(n)` for a count. -/
def natBytes (n : Nat) : Str := (Nat.repr n).data.map Char.toNat

/-- renderFusionGeneDictEntry: iterate the keys of the per-key tally dict
in CPython dict order, render each as `description(count)`, join on `|`. -/
def renderTally (inner : Tally) : Str :=
  List.intercalate [124]
    ((pyDictOrder (inner.map (·.1))).map
      (fun d => d ++ bytes "(" ++
        natBytes (((inner.find? (fun q => q.1 == d)).map (·.2)).getD 0) ++ bytes ")"))

/-- The drain loop: one output row per aggregation key in insertion order;
the fusion_id column is never set, so DictWriter pads it with restval. -/
def cosmicRows (dict : FGDict) : List (List Str) :=
  dict.map (fun p => [p.1, renderTally p.2, bytes ""])

/-- The output header row of createCosmicFusionGeneTsv.py. -/
def COSMIC_HEADERS : List Str := [bytes "gene", bytes "fusion_genes", bytes "fusion_id"]

/-- The Translocation Name column. -/
def TRANSLOC : Str := bytes "Translocation Name"

/-- The aggregation loop over the input records: each iteration reads
`line['Translocation Name']` (KeyError aborts) and folds it in. -/
def cosmicAggregate (dict : FGDict) : List Record → Except PyErr FGDict
  | [] => .ok dict
  | r :: rs =>
    match pyGet r TRANSLOC with
    | none => .error .keyError
    | some d => cosmicAggregate (stepLine dict d) rs

/-- A full createCosmicFusionGeneTsv run: validate that the required
column is in the header before any row is processed, aggregate, then
write the output file (header row first, then one row per key).  An
error means the run aborted and the output file was never created. -/
def cosmicRun (headers : List Str) (lines : List Record) : Except PyErr (List (List Str)) :=
  if TRANSLOC ∈ headers then
    match cosmicAggregate [] lines with
    | .error e => .error e
    | .ok dict => .ok (COSMIC_HEADERS :: cosmicRows dict)
  else .error .notImplemented

/-! ### Counterexamples on concrete inputs -/

/-- C4 counterexample: the description `A{X}_A{Y}` mentions key `A` twice,
so one single input line stores count 2 under (A, description), while the
number of input lines with that description whose extraction yields `A`
is 1.  The count is incremented once per pattern match, not once per line. -/
theorem c4_count_per_match_not_per_line :
    reFindAll (bytes "A\x7bX\x7d_A\x7bY\x7d") = [bytes "A", bytes "A"] ∧
    fgLookup2 (aggregate [bytes "A\x7bX\x7d_A\x7bY\x7d"]) (bytes "A")
      (bytes "A\x7bX\x7d_A\x7bY\x7d") = some 2 ∧
    ([bytes "A\x7bX\x7d_A\x7bY\x7d"].filter
      (fun x => x == bytes "A\x7bX\x7d_A\x7bY\x7d")).length = 1 ∧
    (2 : Nat) ≠ 1 := by
  refine ⟨by decide, by decide, by decide, by decide⟩

/-- C7 counterexample: descriptions `AA{TA}` then `AA{TB}` are inserted
under key `AA` in that order (the table stores them in insertion order),
but the CPython 2 inner dict hashes `AA{TA}` to slot 3 and `AA{TB}` to
slot 2 of the 8-slot table, so the rendered summary lists `AA{TB}` first:
the description entries are NOT rendered in first-occurrence insertion
order. -/
theorem c7_render_order_not_insertion_order :
    aggregate [bytes "AA\x7bTA\x7d", bytes "AA\x7bTB\x7d"] =
      [(bytes "AA", [(bytes "AA\x7bTA\x7d", 1), (bytes "AA\x7bTB\x7d", 1)])] ∧
    cosmicRows (aggregate [bytes "AA\x7bTA\x7d", bytes "AA\x7bTB\x7d"]) =
      [[bytes "AA", bytes "AA\x7bTB\x7d(1)|AA\x7bTA\x7d(1)", bytes ""]] ∧
    bytes "AA\x7bTB\x7d(1)|AA\x7bTA\x7d(1)" ≠ bytes "AA\x7bTA\x7d(1)|AA\x7bTB\x7d(1)" := by
  refine ⟨by decide, by decide, by decide⟩

/-! ### Declarative characterization of the aggregation pass

The stateful fold `aggregate` is characterized by declarative functions
computed directly from the input sequence: the outer keys in order of
first extraction, each key's descriptions in order of first co-occurrence,
and each count as the total number of matches.  The main lemma
`aggregate_eq_declAgg` below proves the two presentations equal. -/

/-- Number of occurrences of `k` in a key list. -/
def occCount (k : Str) (l : List Str) : Nat := (l.filter (fun x => x == k)).length

/-- The descriptions that survive the blank filter, in input order. -/
def nonBlankDescs (descs : List Str) : List Str := descs.filter (fun d => !isBlank d)

/-- All extracted keys of the run, in extraction order (with repeats). -/
def keysOf (descs : List Str) : List Str := (nonBlankDescs descs).flatMap reFindAll

/-- First occurrences of `xs` that are not in `seen`, in order. -/
def firstOccAux (seen : List Str) : List Str → List Str
  | [] => []
  | x :: xs =>
    if seen.contains x then firstOccAux seen xs
    else x :: firstOccAux (seen ++ [x]) xs

/-- First-occurrence deduplication, preserving order. -/
def dedupFO (xs : List Str) : List Str := firstOccAux [] xs

/-- The descriptions recorded under key `k`, in first-occurrence order. -/
def descsFor (descs : List Str) (k : Str) : List Str :=
  dedupFO ((nonBlankDescs descs).filter (fun d => (reFindAll d).contains k))

/-- The declarative count for `(k, d)`: total matches yielding `k` over
the lines whose description is exactly `d`. -/
def countFor (descs : List Str) (k d : Str) : Nat :=
  (((nonBlankDescs descs).filter (fun x => x == d)).map
    (fun x => occCount k (reFindAll x))).sum

/-- Bump the tally of `d` by `n` (no-op for `n = 0`). -/
def innerAddN (inner : Tally) (d : Str) (n : Nat) : Tally :=
  if n = 0 then inner
  else if inner.any (fun q => q.1 == d) then
    inner.map (fun q => if q.1 == d then (q.1, q.2 + n) else q)
  else inner ++ [(d, n)]

/-- The declarative aggregation table. -/
def declAgg (descs : List Str) : FGDict :=
  (dedupFO (keysOf descs)).map
    (fun k => (k, (descsFor descs k).map (fun d => (d, countFor descs k d))))

/-! #### List helper lemmas -/

theorem beqComm (a b : Str) : (a == b) = (b == a) := by
  by_cases h : a = b
  · subst h; rfl
  · rw [beq_eq_false_iff_ne.mpr h, beq_eq_false_iff_ne.mpr (Ne.symm h)]

theorem contains_iff (l : List Str) (a : Str) : l.contains a = true ↔ a ∈ l :=
  List.elem_iff

theorem contains_eq_false_iff (l : List Str) (a : Str) : l.contains a = false ↔ a ∉ l := by
  rw [← Bool.not_eq_true, not_iff_not]
  exact contains_iff l a

theorem contains_congr (s1 s2 : List Str) (h : ∀ y, y ∈ s1 ↔ y ∈ s2) (y : Str) :
    s1.contains y = s2.contains y := by
  by_cases hy : y ∈ s2
  · rw [(contains_iff s1 y).mpr ((h y).mpr hy), (contains_iff s2 y).mpr hy]
  · rw [(contains_eq_false_iff s1 y).mpr (fun c => hy ((h y).mp c)),
      (contains_eq_false_iff s2 y).mpr hy]

theorem contains_append (s t : List Str) (y : Str) :
    (s ++ t).contains y = (s.contains y || t.contains y) := by
  by_cases h : y ∈ s ++ t
  · rw [(contains_iff _ y).mpr h]
    rcases List.mem_append.mp h with h1 | h1
    · rw [(contains_iff s y).mpr h1, Bool.true_or]
    · rw [(contains_iff t y).mpr h1, Bool.or_true]
  · rw [(contains_eq_false_iff _ y).mpr h,
      (contains_eq_false_iff s y).mpr (fun c => h (List.mem_append.mpr (Or.inl c))),
      (contains_eq_false_iff t y).mpr (fun c => h (List.mem_append.mpr (Or.inr c)))]
    rfl

theorem firstOccAux_congr (xs : List Str) : ∀ s1 s2 : List Str,
    (∀ y, y ∈ s1 ↔ y ∈ s2) → firstOccAux s1 xs = firstOccAux s2 xs := by
  induction xs with
  | nil => intro _ _ _; rfl
  | cons x xs ih =>
    intro s1 s2 h
    by_cases hx : x ∈ s2
    · have e1 : s1.contains x = true := (contains_iff _ _).mpr ((h x).mpr hx)
      have e2 : s2.contains x = true := (contains_iff _ _).mpr hx
      simp only [firstOccAux, e1, e2, if_true]
      exact ih s1 s2 h
    · have e1 : s1.contains x = false :=
        (contains_eq_false_iff _ _).mpr (fun c => hx ((h x).mp c))
      have e2 : s2.contains x = false := (contains_eq_false_iff _ _).mpr hx
      simp only [firstOccAux, e1, e2, Bool.false_eq_true, if_false]
      have hx2 : ∀ y, y ∈ s1 ++ [x] ↔ y ∈ s2 ++ [x] := by
        intro y
        simp only [List.mem_append]
        exact or_congr_left (h y)
      rw [ih (s1 ++ [x]) (s2 ++ [x]) hx2]

theorem firstOccAux_append (B : List Str) : ∀ (A seen : List Str),
    firstOccAux seen (A ++ B) = firstOccAux seen A ++ firstOccAux (seen ++ A) B := by
  intro A
  induction A with
  | nil =>
    intro seen
    simp only [List.nil_append, firstOccAux, List.append_nil]
  | cons a A ih =>
    intro seen
    by_cases ha : a ∈ seen
    · have e : seen.contains a = true := (contains_iff _ _).mpr ha
      simp only [List.cons_append, firstOccAux, e, if_true, List.append_eq]
      rw [ih seen]
      have hms : ∀ y, y ∈ seen ++ A ↔ y ∈ seen ++ a :: A := by
        intro y
        simp only [List.mem_append, List.mem_cons]
        constructor
        · rintro (h | h)
          · exact Or.inl h
          · exact Or.inr (Or.inr h)
        · rintro (h | h | h)
          · exact Or.inl h
          · rw [h]; exact Or.inl ha
          · exact Or.inr h
      rw [firstOccAux_congr B (seen ++ A) (seen ++ a :: A) hms]
    · have e : seen.contains a = false := (contains_eq_false_iff _ _).mpr ha
      simp only [List.cons_append, firstOccAux, e, Bool.false_eq_true, if_false,
        List.append_eq, List.cons_append]
      rw [ih (seen ++ [a])]
      have hms : ∀ y, y ∈ seen ++ [a] ++ A ↔ y ∈ seen ++ a :: A := by
        intro y
        simp only [List.append_assoc, List.singleton_append]
      rw [firstOccAux_congr B (seen ++ [a] ++ A) (seen ++ a :: A) hms]

theorem mem_firstOccAux_iff (y : Str) (xs : List Str) : ∀ seen : List Str,
    y ∈ firstOccAux seen xs ↔ (y ∈ xs ∧ y ∉ seen) := by
  induction xs with
  | nil => intro seen; simp [firstOccAux]
  | cons x xs ih =>
    intro seen
    by_cases hx : x ∈ seen
    · have e : seen.contains x = true := (contains_iff _ _).mpr hx
      simp only [firstOccAux, e, if_true, ih seen, List.mem_cons]
      constructor
      · rintro ⟨h1, h2⟩
        exact ⟨Or.inr h1, h2⟩
      · rintro ⟨h1 | h1, h2⟩
        · exact absurd hx (h1 ▸ h2)
        · exact ⟨h1, h2⟩
    · have e : seen.contains x = false := (contains_eq_false_iff _ _).mpr hx
      simp only [firstOccAux, e, Bool.false_eq_true, if_false, List.mem_cons,
        ih (seen ++ [x]), List.mem_append, List.mem_singleton]
      constructor
      · rintro (h1 | ⟨h1, h2⟩)
        · exact ⟨Or.inl h1, h1 ▸ hx⟩
        · exact ⟨Or.inr h1, fun c => h2 (Or.inl c)⟩
      · rintro ⟨h1 | h1, h2⟩
        · exact Or.inl h1
        · by_cases hyx : y = x
          · exact Or.inl hyx
          · refine Or.inr ⟨h1, ?_⟩
            intro c
            rcases c with c | c
            · exact h2 c
            · exact hyx (by simpa using c)

theorem nodup_firstOccAux (xs : List Str) : ∀ seen : List Str,
    (firstOccAux seen xs).Nodup := by
  induction xs with
  | nil => intro seen; exact List.nodup_nil
  | cons x xs ih =>
    intro seen
    by_cases hx : x ∈ seen
    · have e : seen.contains x = true := (contains_iff _ _).mpr hx
      simp only [firstOccAux, e, if_true]
      exact ih seen
    · have e : seen.contains x = false := (contains_eq_false_iff _ _).mpr hx
      simp only [firstOccAux, e, Bool.false_eq_true, if_false]
      refine List.nodup_cons.mpr ⟨?_, ih (seen ++ [x])⟩
      intro hmem
      have hm := (mem_firstOccAux_iff x xs (seen ++ [x])).mp hmem
      exact hm.2 (List.mem_append.mpr (Or.inr (List.mem_singleton.mpr rfl)))

/-! #### Tally lemmas -/

theorem occCount_cons (k b : Str) (l : List Str) :
    occCount k (b :: l) = (if b == k then 1 else 0) + occCount k l := by
  by_cases h : (b == k) = true
  · simp [occCount, List.filter_cons, h, Nat.add_comm]
  · rw [Bool.not_eq_true] at h
    simp [occCount, List.filter_cons, h]

theorem any_map_fst (f : Str × Nat → Str × Nat) (hf : ∀ q, (f q).1 = q.1) (e : Str) :
    ∀ inner : Tally, (inner.map f).any (fun q => q.1 == e) = inner.any (fun q => q.1 == e) := by
  intro inner
  induction inner with
  | nil => rfl
  | cons q t ih => simp [List.any_cons, hf q, ih]

theorem anyKeys_eq_contains (k : Str) : ∀ dict : FGDict,
    dict.any (fun p => p.1 == k) = (dict.map (·.1)).contains k := by
  intro dict
  induction dict with
  | nil => rfl
  | cons p t ih =>
    simp only [List.any_cons, List.map_cons, List.contains_cons, ih, beqComm k p.1]

theorem bump_fst (d : Str) (q : Str × Nat) :
    ((if q.1 == d then (q.1, q.2 + 1) else q) : Str × Nat).1 = q.1 := by
  by_cases h : (q.1 == d) = true
  · simp [h]
  · rw [Bool.not_eq_true] at h
    simp [h]

/-- Bumping a description once and then adding `n` is adding `n + 1`. -/
theorem innerBump_addN (inner : Tally) (d : Str) (n : Nat) :
    innerAddN (innerBump inner d) d n = innerAddN inner d (n + 1) := by
  by_cases hp : inner.any (fun q => q.1 == d) = true
  · have hb : innerBump inner d = inner.map (fun q => if q.1 == d then (q.1, q.2 + 1) else q) := by
      simp only [innerBump, hp, if_true]
    cases n with
    | zero =>
      simp only [hb, innerAddN, if_pos rfl, Nat.zero_add, if_true]
      rw [if_neg (by omega), if_pos hp]
    | succ m =>
      have hp2 : ((inner.map (fun q => if q.1 == d then (q.1, q.2 + 1) else q)).any
          (fun q => q.1 == d)) = true := by
        rw [any_map_fst _ (bump_fst d) d inner]; exact hp
      simp only [hb, innerAddN, if_neg (Nat.succ_ne_zero m), hp2, if_true,
        if_neg (Nat.succ_ne_zero (m + 1)), hp, List.map_map]
      apply List.map_congr_left
      intro q _
      by_cases hq : (q.1 == d) = true
      · simp only [Function.comp_apply, hq, if_true]
        have : q.2 + 1 + (m + 1) = q.2 + (m + 1 + 1) := by omega
        rw [this]
      · rw [Bool.not_eq_true] at hq
        simp only [Function.comp_apply, hq, Bool.false_eq_true, if_false]
  · rw [Bool.not_eq_true] at hp
    have hb : innerBump inner d = inner ++ [(d, 1)] := by
      simp only [innerBump, hp, Bool.false_eq_true, if_false]
    have hall : ∀ q ∈ inner, (q.1 == d) = false := by
      intro q hq
      have := List.any_eq_false.mp hp q hq
      exact Bool.not_eq_true _ |>.mp this
    cases n with
    | zero =>
      simp only [hb, innerAddN, if_pos rfl, Nat.zero_add,
        if_neg (Nat.one_ne_zero), hp, Bool.false_eq_true, if_false]
      simp
    | succ m =>
      have hp2 : ((inner ++ [(d, 1)]).any (fun q => q.1 == d)) = true := by
        simp [List.any_append]
      simp only [hb, innerAddN, if_neg (Nat.succ_ne_zero m), hp2, if_true,
        if_neg (Nat.succ_ne_zero (m + 1)), hp, Bool.false_eq_true, if_false,
        List.map_append]
      have h1 : inner.map (fun q => if q.1 == d then (q.1, q.2 + (m + 1)) else q) = inner := by
        have := List.map_congr_left (l := inner)
          (f := fun q => if q.1 == d then (q.1, q.2 + (m + 1)) else q) (g := id)
          (fun q hq => by simp [hall q hq])
        simpa using this
      rw [h1]
      simp only [List.map_cons, List.map_nil, beq_self_eq_true, if_true]
      have : 1 + (m + 1) = m + 1 + 1 := by omega
      rw [this]

/-- Effect of the inner key loop of one line on an arbitrary table: every
existing key gets its tally for `d` bumped by its number of occurrences,
and the keys not yet in the table are appended in first-occurrence order,
each with a fresh tally for `d`. -/
theorem innerFold_eq (d : Str) : ∀ (kds : List Str) (dict : FGDict),
    kds.foldl (fun dc k => fgInsert dc k d) dict =
      dict.map (fun p => (p.1, innerAddN p.2 d (occCount p.1 kds))) ++
        (firstOccAux (dict.map (·.1)) kds).map (fun k => (k, [(d, occCount k kds)])) := by
  intro kds
  induction kds with
  | nil =>
    intro dict
    simp only [List.foldl_nil, firstOccAux, List.map_nil, List.append_nil]
    have : dict.map (fun p => (p.1, innerAddN p.2 d (occCount p.1 []))) = dict.map id := by
      apply List.map_congr_left
      intro p _
      simp [occCount, innerAddN]
    rw [this, List.map_id]
  | cons k0 rest ih =>
    intro dict
    rw [List.foldl_cons, ih (fgInsert dict k0 d)]
    by_cases hk : dict.any (fun p => p.1 == k0) = true
    · have hins : fgInsert dict k0 d =
          dict.map (fun p => if p.1 == k0 then (p.1, innerBump p.2 d) else p) := by
        simp only [fgInsert, hk, if_true]
      have hkeys : (fgInsert dict k0 d).map (·.1) = dict.map (·.1) := by
        rw [hins, List.map_map]
        apply List.map_congr_left
        intro p _
        simp only [Function.comp_apply]
        by_cases hq : (p.1 == k0) = true
        · simp [hq]
        · rw [Bool.not_eq_true] at hq
          simp [hq]
      have hcont : (dict.map (·.1)).contains k0 = true := by
        rw [← anyKeys_eq_contains]; exact hk
      have hfirst : (fgInsert dict k0 d).map
            (fun p => (p.1, innerAddN p.2 d (occCount p.1 rest))) =
          dict.map (fun p => (p.1, innerAddN p.2 d (occCount p.1 (k0 :: rest)))) := by
        rw [hins, List.map_map]
        apply List.map_congr_left
        intro p _
        simp only [Function.comp_apply]
        by_cases hq : (p.1 == k0) = true
        · simp only [hq, if_true]
          rw [innerBump_addN, occCount_cons, beqComm k0 p.1, hq, if_pos rfl]
          have : occCount p.1 rest + 1 = 1 + occCount p.1 rest := by omega
          rw [this]
        · rw [Bool.not_eq_true] at hq
          simp only [hq, Bool.false_eq_true, if_false]
          rw [occCount_cons, beqComm k0 p.1, hq]
          simp
      have hseen : firstOccAux (dict.map (·.1)) (k0 :: rest) =
          firstOccAux (dict.map (·.1)) rest := by
        simp only [firstOccAux, hcont, if_true]
      rw [hkeys, hfirst, hseen]
      congr 1
      apply List.map_congr_left
      intro k hkmem
      have hmem := (mem_firstOccAux_iff k rest (dict.map (·.1))).mp hkmem
      have hkne : (k0 == k) = false := by
        refine beq_eq_false_iff_ne.mpr ?_
        intro e
        exact hmem.2 (e ▸ (contains_iff _ _).mp hcont)
      rw [occCount_cons, hkne]
      simp
    · rw [Bool.not_eq_true] at hk
      have hall : ∀ p ∈ dict, (p.1 == k0) = false := by
        intro p hp
        exact Bool.not_eq_true _ |>.mp (List.any_eq_false.mp hk p hp)
      have hins : fgInsert dict k0 d = dict ++ [(k0, [(d, 1)])] := by
        simp only [fgInsert, hk, Bool.false_eq_true, if_false]
        rfl
      have hcont : (dict.map (·.1)).contains k0 = false := by
        rw [← anyKeys_eq_contains]; exact hk
      have hseen : firstOccAux (dict.map (·.1)) (k0 :: rest) =
          k0 :: firstOccAux (dict.map (·.1) ++ [k0]) rest := by
        simp only [firstOccAux, hcont, Bool.false_eq_true, if_false]
      have hkeys : (fgInsert dict k0 d).map (·.1) = dict.map (·.1) ++ [k0] := by
        rw [hins]; simp
      rw [hkeys, hseen, hins, List.map_append, List.map_cons]
      simp only [List.map_nil, List.nil_append, List.map_cons]
      rw [List.append_assoc, List.singleton_append]
      congr 1
      · apply List.map_congr_left
        intro p hp
        rw [occCount_cons, beqComm k0 p.1, hall p hp]
        simp
      · congr 1
        · show (k0, innerAddN [(d, 1)] d (occCount k0 rest)) =
            (k0, [(d, occCount k0 (k0 :: rest))])
          have h1 : innerAddN ([(d, 1)] : Tally) d (occCount k0 rest) =
              innerAddN (innerBump [] d) d (occCount k0 rest) := by rfl
          rw [h1, innerBump_addN]
          rw [occCount_cons, beq_self_eq_true, if_pos rfl]
          have h2 : innerAddN ([] : Tally) d (occCount k0 rest + 1) =
              [(d, occCount k0 rest + 1)] := by
            simp [innerAddN]
          rw [h2]
          have : occCount k0 rest + 1 = 1 + occCount k0 rest := by omega
          rw [this]
        · apply List.map_congr_left
          intro k hkmem
          have hmem := (mem_firstOccAux_iff k rest (dict.map (·.1) ++ [k0])).mp hkmem
          have hkne : (k0 == k) = false := by
            refine beq_eq_false_iff_ne.mpr ?_
            intro e
            exact hmem.2 (List.mem_append.mpr (Or.inr (List.mem_singleton.mpr e.symm)))
          rw [occCount_cons, hkne]
          simp

/-! #### Declarative-side append lemmas -/

theorem anyKeysT_eq_contains (e : Str) : ∀ inner : Tally,
    inner.any (fun q => q.1 == e) = (inner.map (·.1)).contains e := by
  intro inner
  induction inner with
  | nil => rfl
  | cons q t ih =>
    simp only [List.any_cons, List.map_cons, List.contains_cons, ih, beqComm e q.1]

theorem occCount_eq_zero_iff (k : Str) (l : List Str) :
    occCount k l = 0 ↔ l.contains k = false := by
  unfold occCount
  rw [List.length_eq_zero, List.filter_eq_nil_iff, contains_eq_false_iff]
  constructor
  · intro h hm
    exact (h k hm) (by simp)
  · intro h x hx hbx
    exact h (eq_of_beq hbx ▸ hx)

theorem mem_keysOf (k : Str) (descs : List Str) :
    k ∈ keysOf descs ↔ ∃ x ∈ nonBlankDescs descs, k ∈ reFindAll x := by
  unfold keysOf
  exact List.mem_flatMap

theorem mem_dedupFO (y : Str) (xs : List Str) : y ∈ dedupFO xs ↔ y ∈ xs := by
  unfold dedupFO
  rw [mem_firstOccAux_iff]
  simp

theorem mem_descsFor (e k : Str) (descs : List Str) :
    e ∈ descsFor descs k ↔
      e ∈ (nonBlankDescs descs).filter (fun x => (reFindAll x).contains k) := by
  unfold descsFor
  exact mem_dedupFO e _

theorem nonBlank_append (descs : List Str) (d : Str) :
    nonBlankDescs (descs ++ [d]) =
      nonBlankDescs descs ++ (if isBlank d then [] else [d]) := by
  unfold nonBlankDescs
  rw [List.filter_append]
  by_cases hb : isBlank d = true
  · simp [hb]
  · rw [Bool.not_eq_true] at hb
    simp [hb]

theorem keysOf_append_nonblank (descs : List Str) (d : Str) (hd : isBlank d = false) :
    keysOf (descs ++ [d]) = keysOf descs ++ reFindAll d := by
  unfold keysOf
  rw [nonBlank_append, hd]
  simp

theorem countFor_append (descs : List Str) (d k e : Str) (hd : isBlank d = false) :
    countFor (descs ++ [d]) k e =
      countFor descs k e + (if d == e then occCount k (reFindAll d) else 0) := by
  unfold countFor
  rw [nonBlank_append, hd]
  simp only [Bool.false_eq_true, if_false, List.filter_append, List.map_append,
    List.sum_append]
  by_cases he : (d == e) = true
  · simp [List.filter_cons, he]
  · rw [Bool.not_eq_true] at he
    simp [List.filter_cons, he]

theorem descsFor_append (descs : List Str) (d k : Str) (hd : isBlank d = false) :
    descsFor (descs ++ [d]) k =
      descsFor descs k ++
        (if (reFindAll d).contains k = true ∧ d ∉ descsFor descs k then [d] else []) := by
  have hstep : descsFor (descs ++ [d]) k
      = descsFor descs k ++ firstOccAux
          ((nonBlankDescs descs).filter (fun x => (reFindAll x).contains k))
          (List.filter (fun x => (reFindAll x).contains k) [d]) := by
    unfold descsFor dedupFO
    rw [nonBlank_append, hd]
    simp only [Bool.false_eq_true, if_false, List.filter_append]
    rw [firstOccAux_append]
    congr 1
  rw [hstep]
  congr 1
  by_cases hk : (reFindAll d).contains k = true
  · simp only [List.filter_cons, List.filter_nil, hk, if_true]
    by_cases hmem : d ∈ descsFor descs k
    · have hc : ((nonBlankDescs descs).filter
          (fun x => (reFindAll x).contains k)).contains d = true :=
        (contains_iff _ _).mpr ((mem_descsFor d k descs).mp hmem)
      simp only [firstOccAux, hc, if_true]
      have hins := (mem_descsFor d k descs).mp hmem
      rw [List.mem_filter] at hins
      simp [hmem, hins.1, (contains_iff _ _).mp hins.2]
    · have hc : ((nonBlankDescs descs).filter
          (fun x => (reFindAll x).contains k)).contains d = false :=
        (contains_eq_false_iff _ _).mpr (fun c => hmem ((mem_descsFor d k descs).mpr c))
      simp only [firstOccAux, hc, Bool.false_eq_true, if_false]
      have hgoal : k ∈ reFindAll d ∧ d ∉ descsFor descs k := by
        exact ⟨(contains_iff _ _).mp hk, hmem⟩
      simp [hgoal.1, hgoal.2, firstOccAux]
  · rw [Bool.not_eq_true] at hk
    have hnk : k ∉ reFindAll d := (contains_eq_false_iff _ _).mp hk
    simp [hk, firstOccAux, List.filter_cons, hnk]

theorem countFor_zero_of_not_mem (descs : List Str) (d k : Str)
    (hk : (reFindAll d).contains k = true) (hmem : d ∉ descsFor descs k) :
    countFor descs k d = 0 := by
  unfold countFor
  have hfil : (nonBlankDescs descs).filter (fun x => x == d) = [] := by
    rw [List.filter_eq_nil_iff]
    intro x hx hbx
    have hxd : x = d := eq_of_beq hbx
    apply hmem
    rw [mem_descsFor, List.mem_filter]
    exact ⟨hxd ▸ hx, hxd ▸ (hxd ▸ hk)⟩
  rw [hfil]
  rfl

theorem descsFor_nil_of_not_key (descs : List Str) (k : Str) (hk : k ∉ keysOf descs) :
    descsFor descs k = [] := by
  unfold descsFor
  have hfil : (nonBlankDescs descs).filter (fun x => (reFindAll x).contains k) = [] := by
    rw [List.filter_eq_nil_iff]
    intro x hx hbx
    exact hk ((mem_keysOf k descs).mpr ⟨x, hx, (contains_iff _ _).mp hbx⟩)
  rw [hfil]
  rfl

theorem countFor_zero_of_not_key (descs : List Str) (d k : Str)
    (hk : k ∉ keysOf descs) (hdk : (reFindAll d).contains k = true) :
    countFor descs k d = 0 := by
  apply countFor_zero_of_not_mem descs d k hdk
  rw [descsFor_nil_of_not_key descs k hk]
  exact List.not_mem_nil d

/-- Appending one non-blank line updates each key entry of the declarative
table exactly as one innerAddN bump by the number of matches in that line. -/
theorem entry_append (descs : List Str) (d k : Str) (hd : isBlank d = false) :
    (descsFor (descs ++ [d]) k).map (fun e => (e, countFor (descs ++ [d]) k e)) =
      innerAddN ((descsFor descs k).map (fun e => (e, countFor descs k e))) d
        (occCount k (reFindAll d)) := by
  by_cases h0 : occCount k (reFindAll d) = 0
  · have hc : (reFindAll d).contains k = false := (occCount_eq_zero_iff _ _).mp h0
    rw [descsFor_append descs d k hd]
    have hnk : k ∉ reFindAll d := (contains_eq_false_iff _ _).mp hc
    have hif : (if (reFindAll d).contains k = true ∧ d ∉ descsFor descs k
        then [d] else []) = [] := by
      simp [hnk]
    rw [hif, List.append_nil, h0]
    simp only [innerAddN, if_pos rfl]
    apply List.map_congr_left
    intro e _
    rw [countFor_append descs d k e hd, h0]
    by_cases hde : (d == e) = true
    · simp [hde]
    · rw [Bool.not_eq_true] at hde
      simp [hde]
  · have hc : (reFindAll d).contains k = true := by
      cases hcc : (reFindAll d).contains k
      · exact absurd ((occCount_eq_zero_iff _ _).mpr hcc) h0
      · rfl
    by_cases hmem : d ∈ descsFor descs k
    · rw [descsFor_append descs d k hd]
      have hif : (if (reFindAll d).contains k = true ∧ d ∉ descsFor descs k
          then [d] else []) = [] := by
        simp [hc, hmem]
      rw [hif, List.append_nil]
      have hpres : ((descsFor descs k).map
          (fun e => (e, countFor descs k e))).any (fun q => q.1 == d) = true := by
        rw [anyKeysT_eq_contains, List.map_map]
        have hid : ((fun q : Str × Nat => q.1) ∘ fun e => (e, countFor descs k e))
            = fun e => e := rfl
        rw [hid, List.map_id']
        exact (contains_iff _ _).mpr hmem
      simp only [innerAddN, if_neg h0, hpres, if_true, List.map_map]
      apply List.map_congr_left
      intro e _
      simp only [Function.comp_apply]
      by_cases hed : (e == d) = true
      · have hede : e = d := eq_of_beq hed
        simp only [hed, if_true]
        rw [countFor_append descs d k e hd, beqComm d e, hed, if_pos rfl]
      · rw [Bool.not_eq_true] at hed
        simp only [hed, Bool.false_eq_true, if_false]
        rw [countFor_append descs d k e hd, beqComm d e, hed]
        simp
    · rw [descsFor_append descs d k hd]
      have hif : (if (reFindAll d).contains k = true ∧ d ∉ descsFor descs k
          then [d] else []) = [d] := by
        simp [hmem, (contains_iff _ _).mp hc]
      rw [hif, List.map_append]
      have habs : ((descsFor descs k).map
          (fun e => (e, countFor descs k e))).any (fun q => q.1 == d) = false := by
        rw [anyKeysT_eq_contains, List.map_map]
        have hid : ((fun q : Str × Nat => q.1) ∘ fun e => (e, countFor descs k e))
            = fun e => e := rfl
        rw [hid, List.map_id']
        exact (contains_eq_false_iff _ _).mpr hmem
      simp only [innerAddN, if_neg h0, habs, Bool.false_eq_true, if_false]
      congr 1
      · apply List.map_congr_left
        intro e hmem_e
        have hed : (d == e) = false := by
          refine beq_eq_false_iff_ne.mpr ?_
          intro hde
          exact hmem (hde ▸ hmem_e)
        rw [countFor_append descs d k e hd, hed]
        simp
      · rw [List.map_cons, List.map_nil]
        rw [countFor_append descs d k d hd, countFor_zero_of_not_mem descs d k hc hmem]
        simp

/-- The keys of the declarative table. -/
theorem declAgg_keys (descs : List Str) :
    (declAgg descs).map (·.1) = dedupFO (keysOf descs) := by
  unfold declAgg
  rw [List.map_map]
  have hid : ((fun p : Str × Tally => p.1) ∘
      fun k => (k, (descsFor descs k).map (fun e => (e, countFor descs k e))))
      = fun k => k := rfl
  rw [hid, List.map_id']

/-- One loop iteration preserves the declarative characterization. -/
theorem stepLine_declAgg (descs : List Str) (d : Str) :
    stepLine (declAgg descs) d = declAgg (descs ++ [d]) := by
  by_cases hb : isBlank d = true
  · have h1 : stepLine (declAgg descs) d = declAgg descs := by
      simp [stepLine, hb]
    have hnb : nonBlankDescs (descs ++ [d]) = nonBlankDescs descs := by
      rw [nonBlank_append]
      simp [hb]
    have hkeys : keysOf (descs ++ [d]) = keysOf descs := by
      unfold keysOf
      rw [hnb]
    have h2 : declAgg (descs ++ [d]) = declAgg descs := by
      unfold declAgg
      rw [hkeys]
      apply List.map_congr_left
      intro k _
      have hdf : descsFor (descs ++ [d]) k = descsFor descs k := by
        unfold descsFor
        rw [hnb]
      rw [hdf]
      have hcf : ∀ e, countFor (descs ++ [d]) k e = countFor descs k e := by
        intro e
        unfold countFor
        rw [hnb]
      exact congrArg _ (List.map_congr_left (fun e _ => by rw [hcf e]))
    rw [h1, h2]
  · rw [Bool.not_eq_true] at hb
    have hsl : stepLine (declAgg descs) d =
        (reFindAll d).foldl (fun dc k => fgInsert dc k d) (declAgg descs) := by
      simp [stepLine, hb]
    rw [hsl, innerFold_eq]
    have hded : dedupFO (keysOf descs ++ reFindAll d) =
        dedupFO (keysOf descs) ++ firstOccAux (keysOf descs) (reFindAll d) := by
      unfold dedupFO
      rw [firstOccAux_append, List.nil_append]
    have hRHS : declAgg (descs ++ [d]) =
        (dedupFO (keysOf descs)).map (fun k => (k, (descsFor (descs ++ [d]) k).map
          (fun e => (e, countFor (descs ++ [d]) k e)))) ++
        (firstOccAux (keysOf descs) (reFindAll d)).map
          (fun k => (k, (descsFor (descs ++ [d]) k).map
            (fun e => (e, countFor (descs ++ [d]) k e)))) := by
      unfold declAgg
      rw [keysOf_append_nonblank descs d hb, hded, List.map_append]
    rw [hRHS]
    congr 1
    · unfold declAgg
      rw [List.map_map]
      apply List.map_congr_left
      intro k _
      simp only [Function.comp_apply]
      rw [entry_append descs d k hb]
    · rw [declAgg_keys]
      rw [firstOccAux_congr (reFindAll d) (dedupFO (keysOf descs)) (keysOf descs)
        (fun y => mem_dedupFO y _)]
      apply List.map_congr_left
      intro k hkmem
      have hmem2 := (mem_firstOccAux_iff k (reFindAll d) (keysOf descs)).mp hkmem
      rw [entry_append descs d k hb, descsFor_nil_of_not_key descs k hmem2.2]
      have hocc : occCount k (reFindAll d) ≠ 0 := by
        intro h0
        exact absurd hmem2.1
          ((contains_eq_false_iff _ _).mp ((occCount_eq_zero_iff _ _).mp h0))
      simp [innerAddN, hocc]

/-- MASTER: the stateful aggregation pass equals the declarative table. -/
theorem aggregate_eq_declAgg (descs : List Str) : aggregate descs = declAgg descs := by
  induction descs using List.reverseRecOn with
  | nil => rfl
  | append_singleton descs d ih =>
    unfold aggregate
    rw [List.foldl_append, List.foldl_cons, List.foldl_nil]
    have : List.foldl stepLine [] descs = aggregate descs := rfl
    rw [this, ih, stepLine_declAgg]

/-! #### Lookup lemmas over the declarative table -/

theorem find?_map_pair {β : Type} (f : Str → β) (k : Str) : ∀ xs : List Str,
    (xs.map (fun x => (x, f x))).find? (fun p => p.1 == k) =
      (xs.find? (fun x => x == k)).map (fun x => (x, f x)) := by
  intro xs
  induction xs with
  | nil => rfl
  | cons x t ih =>
    by_cases hx : (x == k) = true
    · simp [List.find?_cons, hx]
    · rw [Bool.not_eq_true] at hx
      simp [List.find?_cons, hx, ih]

theorem find?_self_of_mem (k : Str) : ∀ xs : List Str, k ∈ xs →
    xs.find? (fun x => x == k) = some k := by
  intro xs
  induction xs with
  | nil => intro h; exact absurd h (List.not_mem_nil k)
  | cons x t ih =>
    intro h
    by_cases hx : (x == k) = true
    · have hfc : List.find? (fun y => y == k) (x :: t) = some x := by
        simp [List.find?_cons, hx]
      rw [hfc, eq_of_beq hx]
    · rw [Bool.not_eq_true] at hx
      have hfc : List.find? (fun y => y == k) (x :: t) =
          List.find? (fun y => y == k) t := by
        simp [List.find?_cons, hx]
      rw [hfc]
      refine ih ?_
      rcases List.mem_cons.mp h with h1 | h1
      · exact absurd (beq_eq_false_iff_ne.mp hx) (by simp [h1])
      · exact h1

theorem find?_none_of_not_mem (k : Str) (xs : List Str) (h : k ∉ xs) :
    xs.find? (fun x => x == k) = none := by
  rw [List.find?_eq_none]
  intro x hx hbx
  exact h (eq_of_beq hbx ▸ hx)

theorem fgFind_declAgg (descs : List Str) (k : Str) :
    fgFind (declAgg descs) k =
      if k ∈ dedupFO (keysOf descs) then
        some ((descsFor descs k).map (fun e => (e, countFor descs k e)))
      else none := by
  unfold fgFind declAgg
  rw [find?_map_pair]
  by_cases hk : k ∈ dedupFO (keysOf descs)
  · rw [find?_self_of_mem k _ hk]
    simp [hk]
  · rw [find?_none_of_not_mem k _ hk]
    simp [hk]

theorem tallyFind_pair (descs : List Str) (k d : Str) :
    ((descsFor descs k).map (fun e => (e, countFor descs k e))).find?
        (fun q => q.1 == d) =
      if d ∈ descsFor descs k then some (d, countFor descs k d) else none := by
  rw [find?_map_pair]
  by_cases hd : d ∈ descsFor descs k
  · rw [find?_self_of_mem d _ hd]
    simp [hd]
  · rw [find?_none_of_not_mem d _ hd]
    simp [hd]

theorem mem_keysOf_of_mem_descsFor (descs : List Str) (k d : Str)
    (h : d ∈ descsFor descs k) : k ∈ keysOf descs := by
  have h2 := (mem_descsFor d k descs).mp h
  rw [List.mem_filter] at h2
  exact (mem_keysOf k descs).mpr ⟨d, h2.1, (contains_iff _ _).mp h2.2⟩

/-! #### Sum partition -/

theorem sum_ite_mem (x : Str) (c : Nat) : ∀ L : List Str, L.Nodup → x ∈ L →
    (L.map (fun d => if x == d then c else 0)).sum = c := by
  intro L
  induction L with
  | nil => intro _ h; exact absurd h (List.not_mem_nil x)
  | cons d t ih =>
    intro hnd hm
    rw [List.map_cons, List.sum_cons]
    by_cases hx : (x == d) = true
    · rw [if_pos hx]
      have hxd : x = d := eq_of_beq hx
      have hzero : (t.map (fun e => if x == e then c else 0)).sum = 0 := by
        apply List.sum_eq_zero
        intro y hy
        rw [List.mem_map] at hy
        obtain ⟨e, he, hye⟩ := hy
        have : (x == e) = false := by
          refine beq_eq_false_iff_ne.mpr ?_
          intro hxe
          exact (List.nodup_cons.mp hnd).1 (by rw [← hxd, hxe]; exact he)
        rw [← hye, this]
        rfl
      omega
    · rw [Bool.not_eq_true] at hx
      rw [hx]
      simp only [Bool.false_eq_true, if_false, Nat.zero_add]
      refine ih (List.nodup_cons.mp hnd).2 ?_
      rcases List.mem_cons.mp hm with h1 | h1
      · exact absurd (beq_eq_false_iff_ne.mp hx) (by simp [h1])
      · exact h1

theorem sum_ite_not_mem (x : Str) (c : Nat) (L : List Str) (h : x ∉ L) :
    (L.map (fun d => if x == d then c else 0)).sum = 0 := by
  apply List.sum_eq_zero
  intro y hy
  rw [List.mem_map] at hy
  obtain ⟨e, he, hye⟩ := hy
  have : (x == e) = false := by
    refine beq_eq_false_iff_ne.mpr ?_
    intro hxe
    exact h (by rw [hxe]; exact he)
  rw [← hye, this]
  rfl

theorem sum_map_add (f g : Str → Nat) : ∀ L : List Str,
    (L.map (fun d => f d + g d)).sum = (L.map f).sum + (L.map g).sum := by
  intro L
  induction L with
  | nil => rfl
  | cons d t ih =>
    simp only [List.map_cons, List.sum_cons, ih]
    omega

/-- Summing the per-description class sums over the deduplicated classes
recovers the total, when descriptions failing the filter contribute 0. -/
theorem sum_partition (fil : Str → Bool) (g : Str → Nat)
    (hg0 : ∀ x, fil x = false → g x = 0) : ∀ l : List Str,
    ((dedupFO (l.filter fil)).map
      (fun d => ((l.filter (fun x => x == d)).map g).sum)).sum = (l.map g).sum := by
  intro l
  induction l using List.reverseRecOn with
  | nil => rfl
  | append_singleton l x ih =>
    have hded : dedupFO ((l ++ [x]).filter fil) =
        dedupFO (l.filter fil) ++ firstOccAux (l.filter fil) (List.filter fil [x]) := by
      rw [List.filter_append]
      unfold dedupFO
      rw [firstOccAux_append, List.nil_append]
    have hsum1 : ∀ d, (((l ++ [x]).filter (fun y => y == d)).map g).sum =
        ((l.filter (fun y => y == d)).map g).sum + (if x == d then g x else 0) := by
      intro d
      rw [List.filter_append, List.map_append, List.sum_append]
      by_cases hx : (x == d) = true
      · simp [List.filter_cons, hx]
      · rw [Bool.not_eq_true] at hx
        simp [List.filter_cons, hx]
    rw [hded, List.map_append, List.sum_append]
    have hmc : (dedupFO (l.filter fil)).map
        (fun d => (((l ++ [x]).filter (fun y => y == d)).map g).sum) =
        (dedupFO (l.filter fil)).map
        (fun d => ((l.filter (fun y => y == d)).map g).sum + (if x == d then g x else 0)) := by
      apply List.map_congr_left
      intro d _
      exact hsum1 d
    rw [hmc, sum_map_add, ih]
    have hrhs : (List.map g (l ++ [x])).sum = (List.map g l).sum + g x := by
      rw [List.map_append, List.sum_append]
      simp
    rw [hrhs]
    by_cases hfx : fil x = true
    · have hfil1 : List.filter fil [x] = [x] := by
        simp [List.filter_cons, hfx]
      by_cases hmem : x ∈ l.filter fil
      · have hc : (l.filter fil).contains x = true := (contains_iff _ _).mpr hmem
        have hfo : firstOccAux (l.filter fil) (List.filter fil [x]) = [] := by
          rw [hfil1]
          simp only [firstOccAux, hc, if_true]
        rw [hfo]
        have hite : ((dedupFO (l.filter fil)).map
            (fun d => if x == d then g x else 0)).sum = g x := by
          apply sum_ite_mem x (g x) _ (nodup_firstOccAux _ _)
          exact (mem_dedupFO x _).mpr hmem
        rw [hite]
        simp
      · have hc : (l.filter fil).contains x = false :=
          (contains_eq_false_iff _ _).mpr hmem
        have hfo : firstOccAux (l.filter fil) (List.filter fil [x]) = [x] := by
          rw [hfil1]
          simp only [firstOccAux, hc, Bool.false_eq_true, if_false]
        rw [hfo]
        have hite : ((dedupFO (l.filter fil)).map
            (fun d => if x == d then g x else 0)).sum = 0 := by
          apply sum_ite_not_mem
          intro c
          exact hmem ((mem_dedupFO x _).mp c)
        rw [hite]
        have hSx : ((l.filter (fun y => y == x)).map g).sum = 0 := by
          apply List.sum_eq_zero
          intro y hy
          rw [List.mem_map] at hy
          obtain ⟨e, he, hye⟩ := hy
          rw [List.mem_filter] at he
          have hex : e = x := eq_of_beq he.2
          have hxl : x ∈ l.filter fil :=
            List.mem_filter.mpr ⟨(by rw [← hex]; exact he.1), hfx⟩
          exact absurd hxl hmem
        have hbig : ([x].map
            (fun d => (((l ++ [x]).filter (fun y => y == d)).map g).sum)).sum = g x := by
          simp only [List.map_cons, List.map_nil, List.sum_cons, List.sum_nil]
          rw [hsum1 x, hSx]
          simp
        rw [hbig]
        omega
    · rw [Bool.not_eq_true] at hfx
      have hfo : firstOccAux (l.filter fil) (List.filter fil [x]) = [] := by
        simp [List.filter_cons, hfx, firstOccAux]
      rw [hfo]
      have hite : ((dedupFO (l.filter fil)).map
          (fun d => if x == d then g x else 0)).sum = 0 := by
        apply sum_ite_not_mem
        intro c
        have hcm := (mem_dedupFO x _).mp c
        rw [List.mem_filter] at hcm
        rw [hcm.2] at hfx
        exact absurd hfx (by simp)
      rw [hite, hg0 x hfx]
      simp

/-- C4 (amended): the stored count under (k, d) equals the total number of
pattern matches yielding k over the input lines whose description is
exactly d (one increment per match occurrence, not per line); consequently
the sum of counts in the mapping of k equals the total number of matches
yielding k over all non-blank lines. -/
theorem c4_amended_count_per_match :
    (∀ (descs : List Str) (k d : Str),
      fgLookup2 (aggregate descs) k d =
        if d ∈ descsFor descs k then some (countFor descs k d) else none) ∧
    (∀ (descs : List Str) (k : Str),
      (((fgFind (aggregate descs) k).getD []).map (fun q => q.2)).sum =
        ((nonBlankDescs descs).map (fun x => occCount k (reFindAll x))).sum) := by
  constructor
  · intro descs k d
    rw [aggregate_eq_declAgg]
    unfold fgLookup2
    rw [fgFind_declAgg]
    by_cases hd : d ∈ descsFor descs k
    · have hk : k ∈ dedupFO (keysOf descs) :=
        (mem_dedupFO k _).mpr (mem_keysOf_of_mem_descsFor descs k d hd)
      rw [if_pos hk]
      simp only [Option.some_bind]
      rw [tallyFind_pair]
      simp [hd]
    · by_cases hk : k ∈ dedupFO (keysOf descs)
      · rw [if_pos hk]
        simp only [Option.some_bind]
        rw [tallyFind_pair]
        simp [hd]
      · rw [if_neg hk]
        simp [hd]
  · intro descs k
    rw [aggregate_eq_declAgg, fgFind_declAgg]
    by_cases hk : k ∈ dedupFO (keysOf descs)
    · rw [if_pos hk]
      simp only [Option.getD_some, List.map_map]
      have hcomp : ((fun q : Str × Nat => q.2) ∘ fun e => (e, countFor descs k e))
          = fun e => countFor descs k e := rfl
      rw [hcomp]
      exact sum_partition (fun x => (reFindAll x).contains k)
        (fun x => occCount k (reFindAll x))
        (fun x hx => (occCount_eq_zero_iff _ _).mpr hx) (nonBlankDescs descs)
    · rw [if_neg hk]
      simp only [Option.getD_none, List.map_nil, List.sum_nil]
      symm
      apply List.sum_eq_zero
      intro y hy
      rw [List.mem_map] at hy
      obtain ⟨x, hx, hyx⟩ := hy
      have hocc : occCount k (reFindAll x) = 0 := by
        rw [occCount_eq_zero_iff, contains_eq_false_iff]
        intro hkr
        exact ((mem_dedupFO k _).mpr ((mem_keysOf k descs).mpr ⟨x, hx, hkr⟩)) |> hk
      rw [← hyx, hocc]

/-! #### pyDictOrder membership -/

theorem mem_dictSetKey (t : List (Option Str)) (key x : Str)
    (h : some x ∈ dictSetKey t key) : some x ∈ t ∨ x = key := by
  unfold dictSetKey at h
  cases hg : t.getD (dictProbe t key) none with
  | some k2 =>
    simp only [hg] at h
    exact Or.inl h
  | none =>
    simp only [hg] at h
    rcases List.mem_or_eq_of_mem_set h with h1 | h1
    · exact Or.inl h1
    · exact Or.inr (Option.some.inj h1)

theorem mem_dictFoldSet (x : Str) : ∀ (ks : List Str) (t : List (Option Str)),
    some x ∈ ks.foldl dictSetKey t → some x ∈ t ∨ x ∈ ks := by
  intro ks
  induction ks with
  | nil => intro t h; exact Or.inl h
  | cons k kt ih =>
    intro t h
    rw [List.foldl_cons] at h
    rcases ih (dictSetKey t k) h with h1 | h1
    · rcases mem_dictSetKey t k x h1 with h2 | h2
      · exact Or.inl h2
      · exact Or.inr (List.mem_cons.mpr (Or.inl h2))
    · exact Or.inr (List.mem_cons.mpr (Or.inr h1))

theorem not_some_mem_replicate (x : Str) (n : Nat) :
    some x ∉ List.replicate n (none : Option Str) := by
  intro h
  exact Option.noConfusion (List.eq_of_mem_replicate h)

theorem mem_pyDictInsert (t : List (Option Str)) (key x : Str)
    (h : some x ∈ pyDictInsert t key) : some x ∈ t ∨ x = key := by
  unfold pyDictInsert at h
  by_cases hc : dictUsed (dictSetKey t key) > dictUsed t ∧
      3 * dictUsed (dictSetKey t key) ≥ 2 * t.length
  · rw [if_pos hc] at h
    unfold dictRebuild at h
    rcases mem_dictFoldSet x _ _ h with h1 | h1
    · exact absurd h1 (not_some_mem_replicate x _)
    · rw [List.mem_filterMap] at h1
      obtain ⟨a, ha, hax⟩ := h1
      simp only [id] at hax
      rw [hax] at ha
      exact mem_dictSetKey t key x ha
  · rw [if_neg hc] at h
    exact mem_dictSetKey t key x h

theorem mem_dictFoldIns (x : Str) : ∀ (ks : List Str) (t : List (Option Str)),
    some x ∈ ks.foldl pyDictInsert t → some x ∈ t ∨ x ∈ ks := by
  intro ks
  induction ks with
  | nil => intro t h; exact Or.inl h
  | cons k kt ih =>
    intro t h
    rw [List.foldl_cons] at h
    rcases ih (pyDictInsert t k) h with h1 | h1
    · rcases mem_pyDictInsert t k x h1 with h2 | h2
      · exact Or.inl h2
      · exact Or.inr (List.mem_cons.mpr (Or.inl h2))
    · exact Or.inr (List.mem_cons.mpr (Or.inr h1))

/-- Every key rendered by the CPython dict iteration was inserted. -/
theorem mem_pyDictOrder (xs : List Str) (x : Str) (h : x ∈ pyDictOrder xs) : x ∈ xs := by
  unfold pyDictOrder at h
  rw [List.mem_filterMap] at h
  obtain ⟨a, ha, hax⟩ := h
  simp only [id] at hax
  rw [hax] at ha
  rcases mem_dictFoldIns x xs _ ha with h1 | h1
  · exact absurd h1 (not_some_mem_replicate x 8)
  · exact h1

/-- C7 (amended): one output row per key in first-extraction order; the
summary renders each recorded description as description(count) joined by
a pipe, with the descriptions ordered by the CPython 2 hash-dict iteration
order of their first-occurrence insertion sequence (not by insertion
order itself). -/
theorem c7_amended_render (descs : List Str) :
    cosmicRows (aggregate descs) =
      (dedupFO (keysOf descs)).map (fun k =>
        [k, List.intercalate [124] ((pyDictOrder (descsFor descs k)).map
          (fun d => d ++ bytes "(" ++ natBytes (countFor descs k d) ++ bytes ")")),
         bytes ""]) := by
  rw [aggregate_eq_declAgg]
  unfold cosmicRows declAgg
  rw [List.map_map]
  apply List.map_congr_left
  intro k _
  simp only [Function.comp_apply]
  have hrt : renderTally ((descsFor descs k).map (fun e => (e, countFor descs k e))) =
      List.intercalate [124] ((pyDictOrder (descsFor descs k)).map
        (fun d => d ++ bytes "(" ++ natBytes (countFor descs k d) ++ bytes ")")) := by
    unfold renderTally
    have hkeys : (((descsFor descs k).map (fun e => (e, countFor descs k e))).map (·.1)) =
        descsFor descs k := by
      rw [List.map_map]
      have hid : ((fun q : Str × Nat => q.1) ∘ fun e => (e, countFor descs k e))
          = fun e => e := rfl
      rw [hid, List.map_id']
    rw [hkeys]
    congr 1
    apply List.map_congr_left
    intro d hd
    have hdm : d ∈ descsFor descs k := mem_pyDictOrder _ _ hd
    rw [tallyFind_pair descs k d, if_pos hdm]
    simp
  rw [hrt]

/-! #### The regex scan equals the spec-side characterization (C6) -/

theorem tokenByte_ne_brace (c : Nat) (h : isTokenByte c = true) : (c == 123) = false := by
  refine beq_eq_false_iff_ne.mpr ?_
  intro hc
  rw [hc] at h
  exact absurd h (by decide)

theorem tokenByte_ne_underscore (c : Nat) (h : isTokenByte c = true) : (c == 95) = false := by
  refine beq_eq_false_iff_ne.mpr ?_
  intro hc
  rw [hc] at h
  exact absurd h (by decide)

theorem dropWhile_head_false (p : Nat → Bool) : ∀ (l : Str) (b : Nat) (r : Str),
    l.dropWhile p = b :: r → p b = false := by
  intro l
  induction l with
  | nil => intro b r h; exact absurd h (by simp)
  | cons a t ih =>
    intro b r h
    rw [List.dropWhile_cons] at h
    by_cases ha : p a = true
    · rw [ha] at h
      simp only [if_true] at h
      exact ih b r h
    · rw [Bool.not_eq_true] at ha
      rw [ha] at h
      simp only [Bool.false_eq_true, if_false] at h
      rw [← (List.cons.injEq _ _ _ _).mp h |>.1]
      exact ha

theorem length_dropWhile_le (p : Nat → Bool) : ∀ l : Str,
    (l.dropWhile p).length ≤ l.length := by
  intro l
  induction l with
  | nil => exact Nat.le_refl 0
  | cons a t ih =>
    rw [List.dropWhile_cons]
    by_cases ha : p a = true
    · rw [ha]
      simp only [if_true, List.length_cons]
      omega
    · rw [Bool.not_eq_true] at ha
      rw [ha]
      simp

theorem reMatchAt_rest_lt (s tok rest : Str) (h : reMatchAt s = some (tok, rest)) :
    rest.length < s.length := by
  unfold reMatchAt at h
  cases hr : (s.dropWhile (fun b => b == 95)).dropWhile isTokenByte with
  | nil =>
    simp only [hr] at h
    exact absurd h (by simp)
  | cons b r2 =>
    simp only [hr] at h
    by_cases hc : (b == 123 &&
        !((s.dropWhile (fun b => b == 95)).takeWhile isTokenByte).isEmpty) = true
    · rw [if_pos hc] at h
      have hrest : rest = r2 := ((Prod.mk.injEq _ _ _ _).mp (Option.some.inj h) |>.2).symm
      have h1 : (b :: r2).length ≤ (s.dropWhile (fun b => b == 95)).length := by
        rw [← hr]
        exact length_dropWhile_le _ _
      have h2 : (s.dropWhile (fun b => b == 95)).length ≤ s.length :=
        length_dropWhile_le _ _
      rw [hrest]
      simp only [List.length_cons] at h1
      omega
    · rw [if_neg hc] at h
      exact absurd h (by simp)

theorem reFindAllAux_congr : ∀ (f1 f2 : Nat) (s : Str),
    s.length ≤ f1 → s.length ≤ f2 → reFindAllAux f1 s = reFindAllAux f2 s := by
  intro f1
  induction f1 with
  | zero =>
    intro f2 s h1 _
    have : s = [] := List.eq_nil_of_length_eq_zero (Nat.le_zero.mp h1)
    subst this
    cases f2 <;> rfl
  | succ n ih =>
    intro f2 s h1 h2
    cases s with
    | nil => cases f2 <;> rfl
    | cons c cs =>
      cases f2 with
      | zero => simp at h2
      | succ m =>
        simp only [reFindAllAux]
        cases hm : reMatchAt (c :: cs) with
        | some pr =>
          obtain ⟨tok, rest⟩ := pr
          have hlt := reMatchAt_rest_lt _ _ _ hm
          simp only [List.length_cons] at h1 h2 hlt
          exact congrArg _ (ih m rest (by omega) (by omega))
        | none =>
          simp only [List.length_cons] at h1 h2
          exact ih m cs (by omega) (by omega)

theorem reFindAll_cons (c : Nat) (cs : Str) :
    reFindAll (c :: cs) = (match reMatchAt (c :: cs) with
      | some (tok, rest) => tok :: reFindAll rest
      | none => reFindAll cs) := by
  show reFindAllAux (c :: cs).length (c :: cs) = _
  simp only [List.length_cons, reFindAllAux]
  cases hm : reMatchAt (c :: cs) with
  | some pr =>
    obtain ⟨tok, rest⟩ := pr
    have hlt := reMatchAt_rest_lt _ _ _ hm
    simp only [List.length_cons] at hlt
    exact congrArg _ (reFindAllAux_congr cs.length rest.length rest (by omega) (by omega))
  | none =>
    rfl

theorem trailingRun_append_one (l : Str) (c : Nat) :
    trailingRun (l ++ [c]) = if isTokenByte c then trailingRun l ++ [c] else [] := by
  unfold trailingRun
  rw [List.reverse_append]
  simp only [List.reverse_cons, List.reverse_nil, List.nil_append, List.singleton_append,
    List.takeWhile_cons]
  by_cases hc : isTokenByte c = true
  · rw [hc]
    simp
  · rw [Bool.not_eq_true] at hc
    rw [hc]
    simp

theorem trailingRun_all_token (l : Str) (h : ∀ x ∈ l, isTokenByte x = true) :
    trailingRun l = l := by
  unfold trailingRun
  rw [List.takeWhile_eq_self_iff.mpr (fun x hx => h x (List.mem_reverse.mp hx))]
  exact List.reverse_reverse l

theorem trailingRun_token_mem (l : Str) (x : Nat) (h : x ∈ trailingRun l) :
    isTokenByte x = true := by
  unfold trailingRun at h
  rw [List.mem_reverse] at h
  exact List.mem_takeWhile_imp h

theorem trailingRun_idem (l : Str) : trailingRun (trailingRun l) = trailingRun l :=
  trailingRun_all_token _ (fun x hx => trailingRun_token_mem l x hx)

/-- The emitted keys only depend on the trailing class run of the scanned
prefix. -/
theorem specKeysAux_pre : ∀ (s pre : Str),
    specKeysAux pre s = specKeysAux (trailingRun pre) s := by
  intro s
  induction s with
  | nil => intro pre; rfl
  | cons c cs ih =>
    intro pre
    simp only [specKeysAux, trailingRun_idem]
    congr 1
    rw [ih (pre ++ [c]), ih (trailingRun pre ++ [c])]
    by_cases hc : isTokenByte c = true
    · rw [trailingRun_append_one, trailingRun_append_one, hc]
      simp only [if_true, trailingRun_idem]
    · rw [Bool.not_eq_true] at hc
      rw [trailingRun_append_one, trailingRun_append_one, hc]
      simp

/-- Walking over a block of class bytes emits nothing and accumulates it. -/
theorem specKeysAux_token_block : ∀ (t pre rest : Str),
    (∀ x ∈ t, isTokenByte x = true) →
    specKeysAux pre (t ++ rest) = specKeysAux (pre ++ t) rest := by
  intro t
  induction t with
  | nil =>
    intro pre rest _
    rw [List.nil_append, List.append_nil]
  | cons x t ih =>
    intro pre rest h
    have hx : isTokenByte x = true := h x (List.mem_cons_self x t)
    have hbr : (x == 123) = false := tokenByte_ne_brace x hx
    rw [List.cons_append]
    simp only [specKeysAux, hbr, Bool.false_and, Bool.false_eq_true, if_false,
      List.nil_append]
    rw [ih (pre ++ [x]) rest (fun y hy => h y (List.mem_cons_of_mem x hy))]
    rw [List.append_assoc, List.singleton_append]

/-- After scanning a non-class byte the accumulated prefix is irrelevant. -/
theorem specKeysAux_reset (pre : Str) (b : Nat) (hb : isTokenByte b = false)
    (r : Str) : specKeysAux (pre ++ [b]) r = specKeysAux [] r := by
  rw [specKeysAux_pre r (pre ++ [b]), trailingRun_append_one, hb]
  simp

theorem reMatchAt_underscore (cs : Str) : reMatchAt (95 :: cs) = reMatchAt cs := by
  unfold reMatchAt
  rw [List.dropWhile_cons]
  simp

theorem reMatchAt_nonclass (c : Nat) (cs : Str) (hc : isTokenByte c = false)
    (hu : (c == 95) = false) : reMatchAt (c :: cs) = none := by
  unfold reMatchAt
  rw [List.dropWhile_cons, hu]
  simp only [Bool.false_eq_true, if_false]
  rw [List.takeWhile_cons, hc, List.dropWhile_cons, hc]
  simp

theorem reMatchAt_class (c : Nat) (cs : Str) (hc : isTokenByte c = true) :
    reMatchAt (c :: cs) =
      (match cs.dropWhile isTokenByte with
       | [] => none
       | b :: r2 => if b == 123 then some (c :: cs.takeWhile isTokenByte, r2) else none) := by
  unfold reMatchAt
  rw [List.dropWhile_cons, tokenByte_ne_underscore c hc]
  simp only [Bool.false_eq_true, if_false]
  rw [List.takeWhile_cons, hc, List.dropWhile_cons, hc]
  simp only [if_true]
  cases hr : cs.dropWhile isTokenByte with
  | nil => rfl
  | cons b r2 =>
    by_cases hb : (b == 123) = true
    · simp [hb]
    · rw [Bool.not_eq_true] at hb
      simp [hb]

theorem specKeysAux_nil_pre_cons (c : Nat) (cs : Str) :
    specKeysAux [] (c :: cs) = specKeysAux [c] cs := by
  simp only [specKeysAux]
  have he : (trailingRun []).isEmpty = true := rfl
  rw [he]
  simp

theorem specKeysAux_nil_nonclass (c : Nat) (cs : Str) (hc : isTokenByte c = false) :
    specKeysAux [] (c :: cs) = specKeysAux [] cs := by
  rw [specKeysAux_nil_pre_cons]
  have := specKeysAux_reset [] c hc cs
  simpa using this

/-- The regex scan equals the positional characterization, by strong
induction on the length of the description. -/
theorem reFindAll_eq_specKeys_aux : ∀ (n : Nat) (s : Str), s.length ≤ n →
    reFindAll s = specKeysAux [] s := by
  intro n
  induction n with
  | zero =>
    intro s hs
    have h0 : s = [] := List.eq_nil_of_length_eq_zero (Nat.le_zero.mp hs)
    subst h0
    rfl
  | succ n ih =>
    intro s hs
    cases s with
    | nil => rfl
    | cons c cs =>
      simp only [List.length_cons] at hs
      rw [reFindAll_cons]
      by_cases hcl : isTokenByte c = true
      · have htake_all : ∀ x ∈ cs.takeWhile isTokenByte, isTokenByte x = true :=
          fun x hx => List.mem_takeWhile_imp hx
        have hall : ∀ x ∈ c :: cs.takeWhile isTokenByte, isTokenByte x = true := by
          intro x hx
          rcases List.mem_cons.mp hx with h1 | h1
          · rw [h1]; exact hcl
          · exact htake_all x h1
        have hsplit : cs.takeWhile isTokenByte ++ cs.dropWhile isTokenByte = cs :=
          List.takeWhile_append_dropWhile isTokenByte cs
        rw [reMatchAt_class c cs hcl]
        cases hr : cs.dropWhile isTokenByte with
        | nil =>
          have htk : cs.takeWhile isTokenByte = cs := by
            have h := hsplit
            rw [hr, List.append_nil] at h
            exact h
          have hcs_all : ∀ x ∈ cs, isTokenByte x = true := by
            intro x hx
            exact List.mem_takeWhile_imp (p := isTokenByte) (by rw [htk]; exact hx)
          rw [ih cs (by omega)]
          have h1 : specKeysAux [] cs = ([] : List Str) := by
            have := specKeysAux_token_block cs [] [] hcs_all
            simpa using this
          have h2 : specKeysAux [] (c :: cs) = ([] : List Str) := by
            have hc2 : ∀ x ∈ c :: cs, isTokenByte x = true := by
              intro x hx
              rcases List.mem_cons.mp hx with hx1 | hx1
              · rw [hx1]; exact hcl
              · exact hcs_all x hx1
            have := specKeysAux_token_block (c :: cs) [] [] hc2
            simpa using this
          rw [h1, h2]
        | cons b r2 =>
          have hbf : isTokenByte b = false := dropWhile_head_false isTokenByte cs b r2 hr
          have hcs_eq : cs = cs.takeWhile isTokenByte ++ (b :: r2) := by
            conv_lhs => rw [← hsplit]
            rw [hr]
          have hlen_r2 : r2.length + 1 ≤ cs.length := by
            have : (b :: r2).length ≤ cs.length := by
              rw [← hr]
              exact length_dropWhile_le _ _
            simpa using this
          by_cases hb : (b == 123) = true
          · simp only [hb, if_true]
            rw [ih r2 (by omega)]
            have hshape : (c :: cs) = (c :: cs.takeWhile isTokenByte) ++ (b :: r2) := by
              rw [List.cons_append, ← hcs_eq]
            conv_rhs => rw [hshape]
            rw [specKeysAux_token_block (c :: cs.takeWhile isTokenByte) [] (b :: r2) hall,
              List.nil_append]
            simp only [specKeysAux, hb, trailingRun_all_token _ hall, Bool.true_and]
            have hne : (c :: cs.takeWhile isTokenByte).isEmpty = false := rfl
            rw [hne]
            simp only [Bool.not_false, if_true, List.singleton_append]
            rw [specKeysAux_reset (c :: cs.takeWhile isTokenByte) b hbf r2]
          · rw [Bool.not_eq_true] at hb
            simp only [hb, Bool.false_eq_true, if_false]
            rw [ih cs (by omega)]
            have h1 : specKeysAux [] cs = specKeysAux [] r2 := by
              conv_lhs => rw [hcs_eq]
              rw [specKeysAux_token_block (cs.takeWhile isTokenByte) [] (b :: r2) htake_all,
                List.nil_append]
              simp only [specKeysAux, hb, Bool.false_and, Bool.false_eq_true, if_false,
                List.nil_append]
              rw [specKeysAux_reset (cs.takeWhile isTokenByte) b hbf r2]
            have h2 : specKeysAux [] (c :: cs) = specKeysAux [] r2 := by
              have hshape : (c :: cs) = (c :: cs.takeWhile isTokenByte) ++ (b :: r2) := by
                rw [List.cons_append, ← hcs_eq]
              conv_lhs => rw [hshape]
              rw [specKeysAux_token_block (c :: cs.takeWhile isTokenByte) [] (b :: r2) hall,
                List.nil_append]
              simp only [specKeysAux, hb, Bool.false_and, Bool.false_eq_true, if_false,
                List.nil_append]
              rw [specKeysAux_reset (c :: cs.takeWhile isTokenByte) b hbf r2]
            rw [h1, h2]
      · rw [Bool.not_eq_true] at hcl
        by_cases hund : (c == 95) = true
        · have hc95 : c = 95 := eq_of_beq hund
          subst hc95
          rw [reMatchAt_underscore cs]
          have hlhs : (match reMatchAt cs with
              | some (tok, rest) => tok :: reFindAll rest
              | none => reFindAll cs) = reFindAll cs := by
            cases hm : reMatchAt cs with
            | none => rfl
            | some pr =>
              obtain ⟨tok, rest⟩ := pr
              cases cs with
              | nil =>
                have hnone : reMatchAt ([] : Str) = none := rfl
                rw [hnone] at hm
                exact Option.noConfusion hm
              | cons c2 cs2 =>
                rw [reFindAll_cons c2 cs2, hm]
          rw [hlhs, ih cs (by omega), specKeysAux_nil_nonclass 95 cs hcl]
        · rw [Bool.not_eq_true] at hund
          rw [reMatchAt_nonclass c cs hcl hund]
          rw [ih cs (by omega), specKeysAux_nil_nonclass c cs hcl]

/-- C6: for every description the extracted keys are exactly the maximal
tokens of uppercase letters, digits, hyphens and periods immediately
preceding a left brace, with preceding underscores discarded (general
equivalence with the positional spec reading); the example A{5'}_B{3'}
yields keys A and B, each with an entry of count 1 for that description;
and a description with zero matches is skipped silently without error. -/
theorem c6_key_extraction :
    (∀ s : Str, reFindAll s = specKeys s) ∧
    reFindAll (bytes "A\x7b5\x27\x7d_B\x7b3\x27\x7d") = [bytes "A", bytes "B"] ∧
    aggregate [bytes "A\x7b5\x27\x7d_B\x7b3\x27\x7d"] =
      [(bytes "A", [(bytes "A\x7b5\x27\x7d_B\x7b3\x27\x7d", 1)]),
       (bytes "B", [(bytes "A\x7b5\x27\x7d_B\x7b3\x27\x7d", 1)])] ∧
    (∀ (dict : FGDict) (d : Str), reFindAll d = [] → stepLine dict d = dict) := by
  refine ⟨?_, by decide, by decide, ?_⟩
  · intro s
    exact reFindAll_eq_specKeys_aux s.length s (Nat.le_refl _)
  · intro dict d h
    unfold stepLine
    rw [h]
    simp only [List.foldl_nil]
    split <;> rfl

/-- Witness for the zero-match conjunct of C6 at a concrete input. -/
theorem c6_key_extraction_witness :
    stepLine [(bytes "A", [(bytes "X", 1)])] (bytes "zz") =
      [(bytes "A", [(bytes "X", 1)])] :=
  c6_key_extraction.2.2.2 [(bytes "A", [(bytes "X", 1)])] (bytes "zz") (by decide)

/-- C8 counterexample: with the Species column absent from the header and
zero data rows, getOreganno.py completes WITHOUT any fatal error and
writes both destination headers — the claimed abort does not happen. -/
theorem c8_no_header_check_counterexample :
    runOreganno [] = ⟨[], [], [], none⟩ ∧
    hg19File [] = [OUTPUT_HEADERS] ∧ hg38File [] = [OUTPUT_HEADERS] := by
  refine ⟨by decide, by decide, by decide⟩

/-- C8 (amended): the aggregation transform validates the header before
any row and aborts with no output when Translocation Name is missing; the
projection transform has no header check: without a Species column it
completes cleanly on zero data rows and aborts with a KeyError at the
first data row otherwise; no data rows are produced in any of the cases. -/
theorem c8_amended_header_check :
    (∀ (headers : List Str) (lines : List Record), TRANSLOC ∉ headers →
      cosmicRun headers lines = .error .notImplemented) ∧
    runOreganno [] = ⟨[], [], [], none⟩ ∧
    (∀ (r : Record) (rs : List Record), pyGet r (bytes "Species") = none →
      runOreganno (r :: rs) = ⟨[], [], [], some .keyError⟩) := by
  refine ⟨?_, by decide, ?_⟩
  · intro headers lines h
    unfold cosmicRun
    rw [if_neg h]
  · intro r rs h
    have hp : processLine r = .error .keyError := by
      unfold processLine
      rw [h]
    show runFrom 0 (r :: rs) = ⟨[], [], [], some .keyError⟩
    simp only [runFrom, hp]

/-- Witness for C8 (amended) at concrete inputs. -/
theorem c8_amended_header_check_witness :
    cosmicRun [bytes "gene"] [] = .error .notImplemented ∧
    runOreganno [[(bytes "Build", bytes "hg19")]] = ⟨[], [], [], some .keyError⟩ :=
  ⟨c8_amended_header_check.1 [bytes "gene"] [] (by decide),
   c8_amended_header_check.2.2 [(bytes "Build", bytes "hg19")] [] (by decide)⟩

/-- C9: destination headers are written at open time before any data row,
so zero-data-row inputs produce exactly the header row in every
destination file (for the cosmic script, under its required-column check
passing, which is the precondition for reaching its writer). -/
theorem c9_eager_headers :
    (∀ lines : List Record, (hg19File lines).head? = some OUTPUT_HEADERS ∧
      (hg38File lines).head? = some OUTPUT_HEADERS) ∧
    (hg19File [] = [OUTPUT_HEADERS] ∧ hg38File [] = [OUTPUT_HEADERS]) ∧
    (∀ headers : List Str, TRANSLOC ∈ headers →
      cosmicRun headers [] = .ok [COSMIC_HEADERS]) ∧
    (∀ (headers : List Str) (lines : List Record) (out : List (List Str)),
      cosmicRun headers lines = .ok out → out.head? = some COSMIC_HEADERS) := by
  refine ⟨?_, ⟨by decide, by decide⟩, ?_, ?_⟩
  · intro lines
    exact ⟨rfl, rfl⟩
  · intro headers h
    unfold cosmicRun
    rw [if_pos h]
    rfl
  · intro headers lines out h
    unfold cosmicRun at h
    by_cases hh : TRANSLOC ∈ headers
    · rw [if_pos hh] at h
      cases hagg : cosmicAggregate [] lines with
      | error e =>
        rw [hagg] at h
        exact absurd h (by simp)
      | ok dict =>
        rw [hagg] at h
        rw [← Except.ok.inj h]
        rfl
    · rw [if_neg hh] at h
      exact absurd h (by simp)

/-- Witness for C9 at a concrete header. -/
theorem c9_eager_headers_witness :
    cosmicRun [TRANSLOC] [] = .ok [COSMIC_HEADERS] :=
  c9_eager_headers.2.2.1 [TRANSLOC] (by decide)

/-- The aggregation depends only on the description column sequence. -/
theorem cosmicAggregate_factor : ∀ (l1 l2 : List Record) (dict : FGDict),
    l1.map (fun r => pyGet r TRANSLOC) = l2.map (fun r => pyGet r TRANSLOC) →
    cosmicAggregate dict l1 = cosmicAggregate dict l2 := by
  intro l1
  induction l1 with
  | nil =>
    intro l2 dict h
    cases l2 with
    | nil => rfl
    | cons r t => simp at h
  | cons r1 t1 ih =>
    intro l2 dict h
    cases l2 with
    | nil => simp at h
    | cons r2 t2 =>
      simp only [List.map_cons, List.cons.injEq] at h
      unfold cosmicAggregate
      rw [← h.1]
      cases hg : pyGet r1 TRANSLOC with
      | none => simp only [hg]
      | some d =>
        simp only [hg]
        exact ih t2 (stepLine dict d) h.2

/-- C10: the aggregation transform is deterministic — its entire output is
a function of the header and the ordered sequence of Translocation Name
values, so equal inputs give byte-identical output. -/
theorem c10_deterministic :
    ∀ (h1 h2 : List Str) (l1 l2 : List Record), h1 = h2 →
      l1.map (fun r => pyGet r TRANSLOC) = l2.map (fun r => pyGet r TRANSLOC) →
      cosmicRun h1 l1 = cosmicRun h2 l2 := by
  intro h1 h2 l1 l2 hh hm
  subst hh
  unfold cosmicRun
  rw [cosmicAggregate_factor l1 l2 [] hm]

/-- Witness for C10: two record lists differing in an unread column give
identical output. -/
theorem c10_deterministic_witness :
    cosmicRun [TRANSLOC] [[(TRANSLOC, bytes "AA\x7bT\x7d")]] =
      cosmicRun [TRANSLOC] [[(TRANSLOC, bytes "AA\x7bT\x7d"), (bytes "Other", bytes "x")]] :=
  c10_deterministic [TRANSLOC] [TRANSLOC] _ _ rfl (by decide)
